import Mathlib

/-!
# Verification of the BCU exchange-rate seeder

Shallow embedding of the extraction-transform pipeline of
`src/seed.js` and `src/models/currency-day.js`.

Conventions of the embedding:
* Spreadsheet cell values are Lean `String`s (the source reads cells and
  uses them as JS strings); a cell that may be missing is `Option String`,
  with `none` standing for JS `undefined`.
* JS truthiness of a string cell (`cell || ctx`) is modelled by `jsOr`:
  `undefined` and the empty string are falsy.
* `moment` dates are modelled as `Option MDate`: `some d` is a valid
  calendar date at UTC midnight, `none` is the moment "Invalid date"
  state.
* Machine behaviour of the external libraries (`moment` parsing in the
  `es` locale, the MySQL driver) is modelled where the source relies on
  it, and each such modelling choice is documented at the definition.
-/

/-- A valid calendar date (no time component; the source normalizes to
UTC midnight via `moment.utc`). -/
structure MDate where
  year : Nat
  month : Nat
  day : Nat
deriving DecidableEq

/-- Calendar order on dates, as comparison of the UTC-midnight
timestamps `moment#isSameOrBefore` performs (lexicographic on
year, month, day). -/
def dateLE (a b : MDate) : Bool :=
  decide (a.year < b.year ∨ (a.year = b.year ∧
    (a.month < b.month ∨ (a.month = b.month ∧ a.day ≤ b.day))))

/-- Embedding of `date.isSameOrBefore(lastDate)` from `seed.js` line 82: moment
returns `false` whenever either side is an invalid moment; `lastDate`
may be `null` (empty store), and `moment(null)` is invalid. -/
def isSameOrBefore (d last : Option MDate) : Bool :=
  match d, last with
  | some a, some b => dateLE a b
  | _, _ => false

/-- JS whitespace recognised by `String.prototype.trim` (the subset that
can occur in the month column). -/
def isJsSpace (c : Char) : Bool :=
  c = ' ' || c = '\t' || c = '\n' || c = '\r'

/-- The JS `String.prototype.trim`: drop leading and trailing whitespace. -/
def trimChars (cs : List Char) : List Char :=
  ((cs.dropWhile isJsSpace).reverse.dropWhile isJsSpace).reverse

/-- The JS `String.prototype.toLowerCase` on the ASCII tokens the month column
holds. -/
def jsToLower (s : String) : String :=
  String.mk (s.data.map Char.toLower)

/-- The JS `String.prototype.trim` as a `String` function. -/
def jsTrim (s : String) : String :=
  String.mk (trimChars s.data)

/-- The function `purgeMonth` from `seed.js` lines 143-160: lowercase, trim, then the
`switch` collapsing the September spellings to `sep` and `agosto` to
`ago`. -/
def purgeMonth (month : String) : String :=
  if jsTrim (jsToLower month) = "set" ∨ jsTrim (jsToLower month) = "setiembre"
      ∨ jsTrim (jsToLower month) = "septiembre" then "sep"
  else if jsTrim (jsToLower month) = "agosto" then "ago"
  else jsTrim (jsToLower month)

/-- The filter `INT_REGEX = /^\d+$/` from `seed.js` line 16. -/
def INT_REGEX_test (s : String) : Bool :=
  !s.data.isEmpty && s.data.all Char.isDigit

/-- The pattern `FLOAT_REGEX = /^\d+([.,]\d+)?$/` from `seed.js` line 17: a maximal
digit prefix, then optionally one separator and a nonempty digit
suffix reaching the end. -/
def FLOAT_REGEX_test (s : String) : Bool :=
  let intPart := s.data.takeWhile Char.isDigit
  let rest := s.data.dropWhile Char.isDigit
  !intPart.isEmpty &&
    (match rest with
     | [] => true
     | c :: ds => (c = ',' || c = '.') && !ds.isEmpty && ds.all Char.isDigit)

/-- In JS, `replace` with a string pattern replaces only the first
occurrence; under `FLOAT_REGEX` at most one comma exists, so this agrees
with replacing every comma. -/
def replaceFirstComma : List Char → List Char
  | [] => []
  | c :: cs => if c = ',' then '.' :: cs else c :: replaceFirstComma cs

/-- The function `getValue` from `seed.js` lines 118-120: the trimmed cell is kept
(comma turned into a dot) iff it matches `FLOAT_REGEX`; otherwise the
result is `null`. -/
def getValue (value : String) : Option String :=
  if FLOAT_REGEX_test value then some (String.mk (replaceFirstComma value.data))
  else none

/-- The month tokens the moment `es` locale recognises for the `MMM`
token of `getDate`: the canonical short codes (which the source follows
with a literal dot, matched by the locale pattern allowing an optional
dot) and the full Spanish month names, each mapped to its 1-based month
number. Tokens are compared lowercase, as `purgeMonth` lowercases its
output. -/
def monthsEs : List (String × Nat) :=
  [("ene", 1), ("feb", 2), ("mar", 3), ("abr", 4), ("may", 5), ("jun", 6),
   ("jul", 7), ("ago", 8), ("sep", 9), ("oct", 10), ("nov", 11), ("dic", 12),
   ("enero", 1), ("febrero", 2), ("marzo", 3), ("abril", 4), ("mayo", 5),
   ("junio", 6), ("julio", 7), ("agosto", 8), ("septiembre", 9),
   ("octubre", 10), ("noviembre", 11), ("diciembre", 12)]

/-- Month lookup for the `MMM` format token; `none` models the locale
pattern not matching the token. -/
def parseMonthEs (tok : String) : Option Nat :=
  (monthsEs.find? (fun p => p.1 = tok)).map Prod.snd

def digitVal (c : Char) : Nat := c.toNat - 48

def natOfDigits (cs : List Char) : Nat :=
  cs.foldl (fun a c => 10 * a + digitVal c) 0

/-- Non-strict moment parsing of a numeric format token: the pattern is
unanchored, so it finds the first run of digits in the remaining input
and consumes at most `width` of them (`D` has width 2, `YYYY` width 4);
`none` models no digits being found, in which case moment falls back to
its current-date defaulting. -/
def parseTok (width : Nat) (s : String) : Option Nat :=
  match (s.data.dropWhile (fun c => !c.isDigit)).takeWhile Char.isDigit with
  | [] => none
  | run => some (natOfDigits (run.take width))

/-- Gregorian leap year, as `moment#isLeapYear`. -/
def isLeapYear (y : Nat) : Bool :=
  (y % 4 = 0 && y % 100 != 0) || y % 400 = 0

/-- Days in a (1-based) month, as moment uses for its overflow check. -/
def daysInMonth (y m : Nat) : Nat :=
  match m with
  | 1 => 31
  | 2 => if isLeapYear y then 29 else 28
  | 3 => 31
  | 4 => 30
  | 5 => 31
  | 6 => 30
  | 7 => 31
  | 8 => 31
  | 9 => 30
  | 10 => 31
  | 11 => 30
  | 12 => 31
  | _ => 0

/-- The current date, which non-strict moment parsing uses to default
units it could not read from the input. Kept as an explicit parameter so
the embedding stays pure; month is 1-based. -/
structure Now where
  year : Nat
  month : Nat
  day : Nat
deriving DecidableEq

/-- The function `getDate` from `seed.js` lines 130-135:
`moment.utc` applied to the template string of day, purged month plus a
literal dot, and year, with format `D-MMM-YYYY` in the `es` locale.
Non-strict moment semantics modelled here:
* each token reads from the input as in `parseTok` and `parseMonthEs`;
  a `none` year argument stands for the JS interpolation of
  `undefined`, which holds no digits;
* units above the most significant successfully-read unit are defaulted
  from the current date, units below it default to January / day 1;
* the overflow check rejects a day outside `1..daysInMonth`, giving an
  invalid moment (`none`). -/
def getDate (now : Now) (day month : String) (year : Option String) :
    Option MDate :=
  let dayTok := parseTok 2 day
  let monTok := parseMonthEs (purgeMonth month)
  let yearTok := parseTok 4 (year.getD "undefined")
  let y := yearTok.getD now.year
  let m := match monTok, yearTok with
           | some m, _ => m
           | none, some _ => 1
           | none, none => now.month
  let d := match dayTok, monTok, yearTok with
           | some d, _, _ => d
           | none, some _, _ => 1
           | none, none, some _ => 1
           | none, none, none => now.day
  if 1 ≤ d ∧ d ≤ daysInMonth y m then some ⟨y, m, d⟩ else none

/-- Formatting by `moment#format` with the `es` locale `L` pattern `DD/MM/YYYY`; an
invalid moment formats as the literal string `Invalid date`. This is
the key of the `days` mapping in `makeArrayOfDays`. -/
def pad2 (n : Nat) : String :=
  if n < 10 then "0" ++ toString n else toString n

def pad4 (n : Nat) : String :=
  if n < 10 then "000" ++ toString n
  else if n < 100 then "00" ++ toString n
  else if n < 1000 then "0" ++ toString n
  else toString n

def formatL : Option MDate → String
  | none => "Invalid date"
  | some d => pad2 d.day ++ "/" ++ pad2 d.month ++ "/" ++ pad4 d.year

/-- Modelled from the spec: `constants/currencies` is not under `src/`;
the spec fixes a closed set of four ISO-like codes recognised at build
time, referenced in the source as `CURR.USD`, `CURR.ARS`, `CURR.BRL`,
`CURR.EUR`. -/
def CURR_USD : String := "USD"

def CURR_ARS : String := "ARS"

def CURR_BRL : String := "BRL"

def CURR_EUR : String := "EUR"

/-- One extracted spreadsheet row, with the cells `makeArrayOfDays`
reads through the `constants/columns` offsets, by name instead of by
index. The day cell is the first column and is guaranteed by the
extractor filter (`INT_REGEX`) to be a digit string; month and year
cells may be missing (`none` models JS `undefined`). -/
structure Line where
  day : String
  month : Option String
  year : Option String
  usdBuy : String
  usdSell : String
  arsBuy : String
  arsSell : String
  brlBuy : String
  brlSell : String
  eurBuy : String
  eurSell : String
deriving DecidableEq

/-- One currency quote `{iso, buy, sell}` as built in `makeArrayOfDays`; `none` is the
`null` absence marker produced by `getValue`. -/
structure Quote where
  iso : String
  buy : Option String
  sell : Option String
deriving DecidableEq

/-- The value stored in the `days` mapping: the `date` field is
`date.toDate()` (invalid moments give an invalid JS date, modelled
`none`) and the four currency quotes in source order. -/
structure Day where
  date : Option MDate
  currencies : List Quote
deriving DecidableEq

/-- The record `makeArrayOfDays` builds for one line (`seed.js`
lines 85-107). -/
def mkDay (date : Option MDate) (line : Line) : Day :=
  { date := date
    currencies :=
      [⟨CURR_USD, getValue line.usdBuy, getValue line.usdSell⟩,
       ⟨CURR_ARS, getValue line.arsBuy, getValue line.arsSell⟩,
       ⟨CURR_BRL, getValue line.brlBuy, getValue line.brlSell⟩,
       ⟨CURR_EUR, getValue line.eurBuy, getValue line.eurSell⟩] }

/-- JS `cell || ctx` on string cells: `undefined` and the empty string
are falsy and fall through to the carried context. -/
def jsOr (cell ctx : Option String) : Option String :=
  match cell with
  | none => ctx
  | some s => if s = "" then ctx else some s

/-- The carry-forward state of the loop in `makeArrayOfDays`: the
`month` and `year` variables, initially `undefined`. -/
structure Ctx where
  month : Option String
  year : Option String
deriving DecidableEq

/-- The context after one line: `month = line[COL.MONTH] || month` and
`year = line[COL.YEAR] || year` (`seed.js` lines 78-79). -/
def stepCtx (ctx : Ctx) (line : Line) : Ctx :=
  ⟨jsOr line.month ctx.month, jsOr line.year ctx.year⟩

/-- Date resolution for one line in context (`seed.js` line 80):
`getDate(day, month, year)` on the already-updated `month` and `year`
variables. When the effective month is still `undefined`,
`purgeMonth(undefined).toLowerCase()` throws a `TypeError` that aborts
the whole call; this is the `Except.error` case. -/
def resolveLine (now : Now) (ctx : Ctx) (line : Line) :
    Except Unit (Option MDate) :=
  match jsOr line.month ctx.month with
  | none => .error ()
  | some m => .ok (getDate now line.day m (jsOr line.year ctx.year))

/-- The resolved date of each line in order, threading the carry-forward
context exactly as the loop of `makeArrayOfDays` does. -/
def resolveAll (now : Now) : Ctx → List Line → List (Except Unit (Option MDate))
  | _, [] => []
  | ctx, l :: ls => resolveLine now ctx l :: resolveAll now (stepCtx ctx l) ls

/-- Assignment `days[k] = v` on a JS object modelled as an association
list: an existing key keeps its position and takes the new value, a new
key is appended. -/
def setKey (m : List (String × Day)) (k : String) (v : Day) :
    List (String × Day) :=
  if m.any (fun p => p.1 = k) then
    m.map (fun p => if p.1 = k then (k, v) else p)
  else m ++ [(k, v)]

/-- Property read `days[k]` on the association list. -/
def lookupKey (m : List (String × Day)) (k : String) : Option Day :=
  (m.find? (fun p => p.1 = k)).map Prod.snd

/-- The loop body of `makeArrayOfDays` (`seed.js` lines 74-109) over the
remaining lines, carrying the context and the `days` object built so
far. A line whose date is same-or-before `lastDate` is skipped by
`continue`; every other line stores its record under the formatted date
key. -/
def makeArrayOfDaysAux (now : Now) (lastDate : Option MDate) :
    Ctx → List (String × Day) → List Line → Except Unit (List (String × Day))
  | _, days, [] => .ok days
  | ctx, days, l :: ls =>
    match resolveLine now ctx l with
    | .error e => .error e
    | .ok date =>
      if isSameOrBefore date lastDate then
        makeArrayOfDaysAux now lastDate (stepCtx ctx l) days ls
      else
        makeArrayOfDaysAux now lastDate (stepCtx ctx l)
          (setKey days (formatL date) (mkDay date l)) ls

/-- The function `makeArrayOfDays` from `seed.js`: fold the extracted lines into the
date-keyed `days` mapping, starting from the empty object and the
`undefined` month and year variables. -/
def makeArrayOfDays (now : Now) (lastDate : Option MDate)
    (lines : List Line) : Except Unit (List (String × Day)) :=
  makeArrayOfDaysAux now lastDate ⟨none, none⟩ [] lines

/-- The candidates that pass the last-known-date filter, in document
order, each paired with its mapping key: a specification-side
companion of `makeArrayOfDaysAux` (the mapping is the left fold of
`setKey` over this list, proved below). -/
def passedKVs (now : Now) (lastDate : Option MDate) :
    Ctx → List Line → Except Unit (List (String × Day))
  | _, [] => .ok []
  | ctx, l :: ls =>
    match resolveLine now ctx l with
    | .error e => .error e
    | .ok date =>
      match passedKVs now lastDate (stepCtx ctx l) ls with
      | .error e => .error e
      | .ok rest =>
        if isSameOrBefore date lastDate then .ok rest
        else .ok ((formatL date, mkDay date l) :: rest)

/-- The function `getLastDate` from `models/currency-day.js` lines 34-50: the SQL
`MAX(date)` over the stored dates, which is `NULL` (modelled `none`)
when the table is empty. -/
def getLastDate (stored : List MDate) : Option MDate :=
  stored.foldl
    (fun acc d =>
      match acc with
      | none => some d
      | some m => some (if dateLE m d then d else m))
    none

/-- The function `insertDays` from `models/currency-day.js` lines 57-89. The input is
the JS `days` argument (`none` models a falsy value). The result models
the observable behaviour at the store boundary: first component the
count passed to the callback, second component the list of rows of the
bulk `INSERT` (`none` when the short-circuit return issues no write).
The MySQL driver reports `affectedRows` equal to the number of value
rows of a bulk insert, which is how the count is modelled. -/
def insertRows (days : List Day) : List (String × Option MDate × Option String × Option String) :=
  days.flatMap
    (fun day => day.currencies.map (fun c => (c.iso, day.date, c.buy, c.sell)))

def insertDays (days : Option (List Day)) :
    Nat × Option (List (String × Option MDate × Option String × Option String)) :=
  match days with
  | none => (0, none)
  | some ds =>
    if ds.length = 0 then (0, none)
    else ((insertRows ds).length, some (insertRows ds))

/-! ## Helper lemmas -/

theorem charToNat_ofNat_of_lt {n : Nat} (h : n < 55296) :
    (Char.ofNat n).toNat = n := by
  have hv : n.isValidChar := Or.inl h
  rw [Char.ofNat, dif_pos hv]
  simp [Char.ofNatAux, Char.toNat, UInt32.toNat, BitVec.toNat_ofNatLt]

theorem toLower_toLower (c : Char) : c.toLower.toLower = c.toLower := by
  simp only [Char.toLower]
  by_cases h : c.toNat ≥ 65 ∧ c.toNat ≤ 90
  · rw [if_pos h]
    have h2 : (Char.ofNat (c.toNat + 32)).toNat = c.toNat + 32 :=
      charToNat_ofNat_of_lt (by omega)
    rw [if_neg (by rw [h2]; omega)]
  · rw [if_neg h, if_neg h]

theorem map_toLower_idem (l : List Char) :
    (l.map Char.toLower).map Char.toLower = l.map Char.toLower := by
  induction l with
  | nil => rfl
  | cons c cs ih => simp only [List.map_cons, toLower_toLower, ih]

theorem dropWhile_eq_self_of_head (p : α → Bool) (l : List α)
    (h : ∀ x, l.head? = some x → p x = false) : l.dropWhile p = l := by
  cases l with
  | nil => rfl
  | cons x xs =>
    exact List.dropWhile_cons_of_neg (by simp [h x rfl])

theorem dropWhile_self (p : α → Bool) (l : List α) :
    (l.dropWhile p).dropWhile p = l.dropWhile p := by
  apply dropWhile_eq_self_of_head
  intro x hx
  have h := List.head?_dropWhile_not p l
  rw [hx] at h
  exact h

theorem trimChars_idem (cs : List Char) :
    trimChars (trimChars cs) = trimChars cs := by
  have h1 : (trimChars cs).dropWhile isJsSpace = trimChars cs := by
    apply dropWhile_eq_self_of_head
    intro x hx
    unfold trimChars at hx
    rw [List.head?_reverse] at hx
    obtain ⟨t, ht⟩ :=
      List.dropWhile_suffix (l := (cs.dropWhile isJsSpace).reverse) isJsSpace
    have h2 : ((cs.dropWhile isJsSpace).reverse).getLast? = some x := by
      rw [← ht, List.getLast?_append, hx]
      rfl
    rw [List.getLast?_reverse] at h2
    have h3 := List.head?_dropWhile_not isJsSpace cs
    rw [h2] at h3
    exact h3
  have h2 : (trimChars cs).reverse.dropWhile isJsSpace = (trimChars cs).reverse := by
    unfold trimChars
    rw [List.reverse_reverse]
    exact dropWhile_self _ _
  calc trimChars (trimChars cs)
      = (((trimChars cs).dropWhile isJsSpace).reverse.dropWhile isJsSpace).reverse := rfl
    _ = ((trimChars cs).reverse.dropWhile isJsSpace).reverse := by rw [h1]
    _ = ((trimChars cs).reverse).reverse := by rw [h2]
    _ = trimChars cs := List.reverse_reverse _

theorem trimChars_map_toLower (l : List Char) :
    ∃ d : List Char, trimChars (l.map Char.toLower) = d.map Char.toLower := by
  unfold trimChars
  rw [List.dropWhile_map, ← List.map_reverse, List.dropWhile_map,
    ← List.map_reverse]
  exact ⟨_, rfl⟩

theorem map_toLower_trimChars (l : List Char) :
    (trimChars (l.map Char.toLower)).map Char.toLower
      = trimChars (l.map Char.toLower) := by
  obtain ⟨d, hd⟩ := trimChars_map_toLower l
  rw [hd, map_toLower_idem]

theorem trimLower_idem (m : String) :
    jsTrim (jsToLower (jsTrim (jsToLower m))) = jsTrim (jsToLower m) := by
  show String.mk (trimChars ((trimChars (m.data.map Char.toLower)).map Char.toLower))
      = String.mk (trimChars (m.data.map Char.toLower))
  rw [map_toLower_trimChars, trimChars_idem]

theorem purgeMonth_absorb (m : String) :
    purgeMonth (jsTrim (jsToLower m)) = purgeMonth m := by
  unfold purgeMonth
  rw [trimLower_idem]

theorem purgeMonth_idem (m : String) :
    purgeMonth (purgeMonth m) = purgeMonth m := by
  by_cases h1 : jsTrim (jsToLower m) = "set" ∨ jsTrim (jsToLower m) = "setiembre"
      ∨ jsTrim (jsToLower m) = "septiembre"
  · have hm : purgeMonth m = "sep" := by
      unfold purgeMonth
      rw [if_pos h1]
    rw [hm]
    decide
  · by_cases h2 : jsTrim (jsToLower m) = "agosto"
    · have hm : purgeMonth m = "ago" := by
        unfold purgeMonth
        rw [if_neg h1, if_pos h2]
      rw [hm]
      decide
    · have hm : purgeMonth m = jsTrim (jsToLower m) := by
        unfold purgeMonth
        rw [if_neg h1, if_neg h2]
      rw [hm]
      unfold purgeMonth
      rw [trimLower_idem, if_neg h1, if_neg h2]

theorem lookupKey_map_replace {k k' : String} {v : Day}
    (m : List (String × Day)) (hne : k' ≠ k) :
    lookupKey (m.map (fun p => if p.1 = k then (k, v) else p)) k'
      = lookupKey m k' := by
  induction m with
  | nil => rfl
  | cons p rest ih =>
    unfold lookupKey at ih ⊢
    by_cases hp : p.1 = k
    · rw [List.map_cons, if_pos hp,
        List.find?_cons_of_neg _ (by simp [Ne.symm hne]),
        List.find?_cons_of_neg _ (by simp [hp, Ne.symm hne])]
      exact ih
    · rw [List.map_cons, if_neg hp]
      by_cases hk' : p.1 = k'
      · rw [List.find?_cons_of_pos _ (by simp [hk']),
          List.find?_cons_of_pos _ (by simp [hk'])]
      · rw [List.find?_cons_of_neg _ (by simp [hk']),
          List.find?_cons_of_neg _ (by simp [hk'])]
        exact ih

theorem lookupKey_setKey (m : List (String × Day)) (k k' : String) (v : Day) :
    lookupKey (setKey m k v) k'
      = if k' = k then some v else lookupKey m k' := by
  unfold setKey
  by_cases hmem : m.any (fun p => p.1 = k) = true
  · rw [if_pos hmem]
    by_cases hk : k' = k
    · subst hk
      rw [if_pos rfl]
      induction m with
      | nil => simp at hmem
      | cons p rest ih =>
        rw [List.any_cons, Bool.or_eq_true] at hmem
        by_cases hp : p.1 = k'
        · unfold lookupKey
          rw [List.map_cons, if_pos hp, List.find?_cons_of_pos _ (by simp)]
          rfl
        · unfold lookupKey
          rw [List.map_cons, if_neg hp,
            List.find?_cons_of_neg _ (by simp [hp])]
          rcases hmem with hmem | hmem
          · simp [hp] at hmem
          · exact ih hmem
    · rw [if_neg hk]
      exact lookupKey_map_replace m hk
  · rw [if_neg hmem]
    have hnone : List.find? (fun p => p.1 = k) m = none := by
      rw [List.find?_eq_none]
      intro p hp
      simp only [decide_eq_true_eq]
      intro hpk
      exact absurd (List.any_eq_true.mpr ⟨p, hp, by simp [hpk]⟩) hmem
    by_cases hk : k' = k
    · subst hk
      rw [if_pos rfl]
      unfold lookupKey
      rw [List.find?_append, hnone, Option.none_or,
        List.find?_cons_of_pos _ (by simp)]
      rfl
    · rw [if_neg hk]
      unfold lookupKey
      rw [List.find?_append, List.find?_cons_of_neg _ (by simp [Ne.symm hk]),
        List.find?_nil, Option.or_none]

theorem mem_setKey {m : List (String × Day)} {k : String} {v : Day}
    {q : String × Day} (h : q ∈ setKey m k v) : q ∈ m ∨ q = (k, v) := by
  unfold setKey at h
  by_cases hmem : m.any (fun p => p.1 = k) = true
  · rw [if_pos hmem] at h
    obtain ⟨p, hp, hq⟩ := List.mem_map.mp h
    by_cases hpk : p.1 = k
    · rw [if_pos hpk] at hq
      exact Or.inr hq.symm
    · rw [if_neg hpk] at hq
      exact Or.inl (hq ▸ hp)
  · rw [if_neg hmem] at h
    rcases List.mem_append.mp h with h | h
    · exact Or.inl h
    · exact Or.inr (List.mem_singleton.mp h)

theorem fst_setKey (m : List (String × Day)) (k : String) (v : Day) :
    (setKey m k v).map Prod.fst = m.map Prod.fst
    ∨ (setKey m k v).map Prod.fst = m.map Prod.fst ++ [k] := by
  unfold setKey
  by_cases hmem : m.any (fun p => p.1 = k) = true
  · rw [if_pos hmem]
    left
    rw [List.map_map]
    apply List.map_congr_left
    intro p _
    by_cases hpk : p.1 = k
    · simp [hpk]
    · simp [hpk]
  · rw [if_neg hmem]
    right
    rw [List.map_append]
    rfl

theorem nodup_fst_setKey {m : List (String × Day)} {k : String} {v : Day}
    (h : (m.map Prod.fst).Nodup) : ((setKey m k v).map Prod.fst).Nodup := by
  rcases fst_setKey m k v with heq | heq
  · rw [heq]
    exact h
  · rw [heq]
    unfold setKey at heq
    by_cases hmem : m.any (fun p => p.1 = k) = true
    · rw [if_pos hmem] at heq
      exfalso
      have hlen := congrArg List.length heq
      simp at hlen
    · have hk : k ∉ m.map Prod.fst := by
        intro hk
        obtain ⟨p, hp, hpk⟩ := List.mem_map.mp hk
        exact absurd (List.any_eq_true.mpr ⟨p, hp, by simp [hpk]⟩) hmem
      rw [List.nodup_append]
      refine ⟨h, List.nodup_singleton _, ?_⟩
      intro x hx hxk
      rw [List.mem_singleton] at hxk
      exact hk (hxk ▸ hx)

theorem getLast?_cons_or (a : α) (l : List α) :
    (a :: l).getLast? = l.getLast?.or (some a) := by
  induction l generalizing a with
  | nil => rfl
  | cons b bs ih =>
    rw [List.getLast?_cons_cons, ih b]
    cases h : bs.getLast? <;> rfl

theorem or_some_or (x : Option α) (b : α) (y : Option α) :
    (x.or (some b)).or y = x.or (some b) := by
  cases x <;> rfl

/-- The folded `days` object agrees with the last passed candidate per
key: the ur-lemma behind the last-wins behaviour of the aggregator. -/
theorem lookupKey_foldl_setKey (kvs : List (String × Day)) :
    ∀ (m : List (String × Day)) (k : String),
    lookupKey (kvs.foldl (fun m p => setKey m p.1 p.2) m) k
      = (((kvs.filter (fun p => p.1 = k)).map Prod.snd).getLast?).or
          (lookupKey m k) := by
  induction kvs with
  | nil =>
    intro m k
    rfl
  | cons p kvs ih =>
    intro m k
    rw [List.foldl_cons, ih (setKey m p.1 p.2) k, lookupKey_setKey]
    by_cases hp : p.1 = k
    · rw [List.filter_cons_of_pos (by simp [hp]), List.map_cons,
        getLast?_cons_or, if_pos hp.symm, or_some_or]
    · rw [List.filter_cons_of_neg (by simp [hp]),
        if_neg (fun h => hp h.symm)]

theorem mem_foldl_setKey (kvs : List (String × Day)) :
    ∀ (m : List (String × Day)) (q : String × Day),
    q ∈ kvs.foldl (fun m p => setKey m p.1 p.2) m → q ∈ m ∨ q ∈ kvs := by
  induction kvs with
  | nil =>
    intro m q h
    exact Or.inl h
  | cons p kvs ih =>
    intro m q h
    rw [List.foldl_cons] at h
    rcases ih (setKey m p.1 p.2) q h with h | h
    · rcases mem_setKey h with h | h
      · exact Or.inl h
      · exact Or.inr (by simp [h])
    · exact Or.inr (List.mem_cons_of_mem _ h)

theorem nodup_fst_foldl_setKey (kvs : List (String × Day)) :
    ∀ (m : List (String × Day)), (m.map Prod.fst).Nodup →
    ((kvs.foldl (fun m p => setKey m p.1 p.2) m).map Prod.fst).Nodup := by
  induction kvs with
  | nil =>
    intro m h
    exact h
  | cons p kvs ih =>
    intro m h
    rw [List.foldl_cons]
    exact ih _ (nodup_fst_setKey h)

/-- The loop of `makeArrayOfDays` is the left fold of `setKey` over the
passed candidates. -/
theorem makeArrayOfDaysAux_eq_foldl (now : Now) (lastDate : Option MDate) :
    ∀ (ls : List Line) (ctx : Ctx) (days : List (String × Day)),
    makeArrayOfDaysAux now lastDate ctx days ls
      = (passedKVs now lastDate ctx ls).map
          (fun kvs => kvs.foldl (fun m p => setKey m p.1 p.2) days) := by
  intro ls
  induction ls with
  | nil =>
    intro ctx days
    rfl
  | cons l ls ih =>
    intro ctx days
    cases hres : resolveLine now ctx l with
    | error e => simp only [makeArrayOfDaysAux, passedKVs, hres, Except.map]
    | ok date =>
      by_cases hf : isSameOrBefore date lastDate = true
      · simp only [makeArrayOfDaysAux, passedKVs, hres, hf, if_true, ih]
        cases hrec : passedKVs now lastDate (stepCtx ctx l) ls with
        | error e => rfl
        | ok rest => simp [hf]
      · simp only [makeArrayOfDaysAux, passedKVs, hres, hf, if_false, ih]
        cases hrec : passedKVs now lastDate (stepCtx ctx l) ls with
        | error e => rfl
        | ok rest =>
          simp only [hf, Bool.false_eq_true, if_false]
          rfl

/-- Every passed candidate was keyed by its formatted date and did pass
the same-or-before filter. -/
theorem passedKVs_mem (now : Now) (lastDate : Option MDate) :
    ∀ (ls : List Line) (ctx : Ctx) (kvs : List (String × Day)),
    passedKVs now lastDate ctx ls = .ok kvs →
    ∀ p ∈ kvs, isSameOrBefore p.2.date lastDate = false
      ∧ p.1 = formatL p.2.date := by
  intro ls
  induction ls with
  | nil =>
    intro ctx kvs h p hp
    cases h
    cases hp
  | cons l ls ih =>
    intro ctx kvs h p hp
    cases hres : resolveLine now ctx l with
    | error e =>
      simp only [passedKVs, hres] at h
      cases h
    | ok date =>
      cases hrec : passedKVs now lastDate (stepCtx ctx l) ls with
      | error e =>
        simp only [passedKVs, hres, hrec] at h
        cases h
      | ok rest =>
        by_cases hf : isSameOrBefore date lastDate = true
        · simp only [passedKVs, hres, hrec, hf, if_true, Except.ok.injEq] at h
          subst h
          exact ih (stepCtx ctx l) rest hrec p hp
        · simp only [passedKVs, hres, hrec, hf, Bool.false_eq_true, if_false,
            Except.ok.injEq] at h
          subst h
          rcases List.mem_cons.mp hp with hp | hp
          · rw [hp]
            exact ⟨Bool.eq_false_iff.mpr hf, rfl⟩
          · exact ih (stepCtx ctx l) rest hrec p hp

theorem isSameOrBefore_none (d : Option MDate) :
    isSameOrBefore d none = false := by
  cases d <;> rfl

/-- With no last known date, the filter drops nothing: one candidate
per line. -/
theorem passedKVs_none_length (now : Now) :
    ∀ (ls : List Line) (ctx : Ctx) (kvs : List (String × Day)),
    passedKVs now none ctx ls = .ok kvs → kvs.length = ls.length := by
  intro ls
  induction ls with
  | nil =>
    intro ctx kvs h
    cases h
    rfl
  | cons l ls ih =>
    intro ctx kvs h
    cases hres : resolveLine now ctx l with
    | error e =>
      simp only [passedKVs, hres] at h
      cases h
    | ok date =>
      cases hrec : passedKVs now none (stepCtx ctx l) ls with
      | error e =>
        simp only [passedKVs, hres, hrec] at h
        cases h
      | ok rest =>
        simp only [passedKVs, hres, hrec, isSameOrBefore_none,
          Bool.false_eq_true, if_false, Except.ok.injEq] at h
        subst h
        rw [List.length_cons, ih (stepCtx ctx l) rest hrec]
        rfl

theorem dateLE_refl (d : MDate) : dateLE d d = true := by
  simp [dateLE]

/-- Destructs a successful `makeArrayOfDays` run into its passed
candidates and the fold that built the mapping. -/
theorem makeArrayOfDays_ok (now : Now) (lastDate : Option MDate)
    (lines : List Line) (out : List (String × Day))
    (h : makeArrayOfDays now lastDate lines = .ok out) :
    ∃ kvs, passedKVs now lastDate ⟨none, none⟩ lines = .ok kvs
      ∧ out = kvs.foldl (fun m p => setKey m p.1 p.2) [] := by
  unfold makeArrayOfDays at h
  rw [makeArrayOfDaysAux_eq_foldl] at h
  cases hrec : passedKVs now lastDate ⟨none, none⟩ lines with
  | error e =>
    rw [hrec] at h
    cases h
  | ok kvs =>
    rw [hrec] at h
    cases h
    exact ⟨kvs, rfl, rfl⟩

/-- A fixed current date, standing for the wall clock moment reads its
parsing defaults from; the claims hold for every value of it. -/
def nowW : Now := ⟨2025, 3, 14⟩

/-- Sample extracted rows used by the concrete witnesses. -/
def lineAgo1 : Line :=
  ⟨"1", some "ago", some "2020", "70,5", "71,0", "", "", "", "", "", ""⟩

def lineBlank2 : Line :=
  ⟨"2", none, none, "70,7", "71,2", "", "", "", "", "", ""⟩

def lineDup1 : Line :=
  ⟨"1", none, none, "80,0", "81,0", "", "", "", "", "", ""⟩

def lineBad : Line :=
  ⟨"31", some "abr", some "2020", "1", "2", "", "", "", "", "", ""⟩

/-- The valid-quote pattern in the words of the spec: one or more
digits, optionally followed by a decimal separator (comma or dot) and
one or more digits. Stated independently of `FLOAT_REGEX_test` and
proved equivalent to it. -/
def specFloatPattern (s : String) : Prop :=
  (s.data ≠ [] ∧ ∀ c ∈ s.data, c.isDigit = true)
  ∨ ∃ a c b, (c = ',' ∨ c = '.')
      ∧ a ≠ [] ∧ b ≠ [] ∧ (∀ x ∈ a, x.isDigit = true)
      ∧ (∀ x ∈ b, x.isDigit = true) ∧ s.data = a ++ c :: b

theorem sep_not_digit {c : Char} (h : c = ',' ∨ c = '.') :
    c.isDigit = false := by
  rcases h with h | h <;> rw [h] <;> decide

theorem takeWhile_all_digits {l : List Char}
    (h : ∀ c ∈ l, c.isDigit = true) :
    l.takeWhile Char.isDigit = l ∧ l.dropWhile Char.isDigit = [] := by
  induction l with
  | nil => exact ⟨rfl, rfl⟩
  | cons x xs ih =>
    have hx : x.isDigit = true := h x (by simp)
    have ih2 := ih (fun c hc => h c (by simp [hc]))
    exact ⟨by rw [List.takeWhile_cons_of_pos hx, ih2.1],
           by rw [List.dropWhile_cons_of_pos hx, ih2.2]⟩

theorem float_regex_iff (s : String) :
    FLOAT_REGEX_test s = true ↔ specFloatPattern s := by
  unfold FLOAT_REGEX_test specFloatPattern
  constructor
  · intro h
    rw [Bool.and_eq_true] at h
    obtain ⟨h1, h2⟩ := h
    cases hr : s.data.dropWhile Char.isDigit with
    | nil =>
      left
      have hs : s.data = s.data.takeWhile Char.isDigit := by
        conv_lhs => rw [← List.takeWhile_append_dropWhile Char.isDigit s.data]
        rw [hr, List.append_nil]
      constructor
      · rw [hs]
        simpa using h1
      · intro c hc
        rw [hs] at hc
        have := List.all_takeWhile (p := Char.isDigit) (l := s.data)
        exact (List.all_eq_true.mp this) c hc
    | cons c ds =>
      right
      rw [hr] at h2
      have h2' : ((c = ',' || c = '.') && !ds.isEmpty && ds.all Char.isDigit)
          = true := h2
      rw [Bool.and_eq_true, Bool.and_eq_true] at h2'
      obtain ⟨⟨hsep, hne⟩, hall⟩ := h2'
      refine ⟨s.data.takeWhile Char.isDigit, c, ds, ?_, ?_, ?_, ?_, ?_, ?_⟩
      · rcases Bool.or_eq_true _ _ |>.mp hsep with h | h
        · exact Or.inl (of_decide_eq_true h)
        · exact Or.inr (of_decide_eq_true h)
      · intro hnil
        rw [hnil] at h1
        simp at h1
      · intro hnil
        rw [hnil] at hne
        simp at hne
      · exact List.all_eq_true.mp (List.all_takeWhile (p := Char.isDigit))
      · exact List.all_eq_true.mp hall
      · conv_lhs => rw [← List.takeWhile_append_dropWhile Char.isDigit s.data]
        rw [hr]
  · intro h
    rcases h with ⟨hne, hdig⟩ | ⟨a, c, b, hc, ha, hb, hadig, hbdig, hs⟩
    · obtain ⟨ht, hd⟩ := takeWhile_all_digits hdig
      rw [Bool.and_eq_true]
      refine ⟨?_, ?_⟩
      · rw [ht]
        simpa using hne
      · rw [hd]
    · have hcd : c.isDigit = false := sep_not_digit hc
      have htw : s.data.takeWhile Char.isDigit = a := by
        rw [hs, List.takeWhile_append_of_pos hadig,
          List.takeWhile_cons_of_neg (by simp [hcd]), List.append_nil]
      have hdw : s.data.dropWhile Char.isDigit = c :: b := by
        rw [hs, List.dropWhile_append_of_pos hadig,
          List.dropWhile_cons_of_neg (by simp [hcd])]
      rw [Bool.and_eq_true, hdw]
      refine ⟨?_, ?_⟩
      · rw [htw]
        simpa using ha
      · show ((c = ',' || c = '.') && !b.isEmpty && b.all Char.isDigit) = true
        rw [Bool.and_eq_true, Bool.and_eq_true]
        refine ⟨⟨?_, ?_⟩, List.all_eq_true.mpr hbdig⟩
        · rcases hc with h | h <;> simp [h]
        · simpa using hb

/-- C5: month-name normalization lowercases and trims before mapping
aliases to a canonical code; the spellings Septiembre, SET, setiembre
and sep all normalize to the September code sep, agosto normalizes to
the August code ago, and normalization is idempotent. -/
theorem purgeMonth_canonical_and_idempotent :
    purgeMonth "Septiembre" = "sep" ∧ purgeMonth "SET" = "sep"
    ∧ purgeMonth "setiembre" = "sep" ∧ purgeMonth "sep" = "sep"
    ∧ purgeMonth "agosto" = "ago"
    ∧ (∀ m : String, purgeMonth (jsTrim (jsToLower m)) = purgeMonth m)
    ∧ (∀ m : String, purgeMonth (purgeMonth m) = purgeMonth m) :=
  ⟨by decide, by decide, by decide, by decide, by decide,
   purgeMonth_absorb, purgeMonth_idem⟩

/-- C3: numeric normalization yields a decimal (the cell with its first
comma turned into a dot) exactly when the cell matches one-or-more
digits optionally followed by a separator and one-or-more digits, and
yields the `null` absence marker, never an error and never zero, on any
other cell; in particular 1,2345 becomes 1.2345, 12.5 stays 12.5, and
the empty cell and abc become absence. -/
theorem getValue_characterization (s : String) :
    (getValue s = some (String.mk (replaceFirstComma s.data))
      ↔ specFloatPattern s)
    ∧ (getValue s = none ↔ ¬ specFloatPattern s)
    ∧ getValue "1,2345" = some "1.2345"
    ∧ getValue "12.5" = some "12.5"
    ∧ getValue "" = none
    ∧ getValue "abc" = none := by
  have key := float_regex_iff s
  unfold getValue
  by_cases h : FLOAT_REGEX_test s = true
  · rw [if_pos h]
    exact ⟨⟨fun _ => key.mp h, fun _ => rfl⟩,
           ⟨fun h' => absurd h' (by simp), fun hnp => absurd (key.mp h) hnp⟩,
           by decide, by decide, by decide, by decide⟩
  · rw [if_neg h]
    exact ⟨⟨fun h' => absurd h' (by simp), fun hp => absurd (key.mpr hp) h⟩,
           ⟨fun _ => fun hp => h (key.mpr hp), fun _ => rfl⟩,
           by decide, by decide, by decide, by decide⟩

theorem parseTok_all_digits {w : Nat} {s : String}
    (hd : INT_REGEX_test s = true) (hlen : s.data.length ≤ w) :
    parseTok w s = some (natOfDigits s.data) := by
  unfold INT_REGEX_test at hd
  rw [Bool.and_eq_true] at hd
  obtain ⟨hne, hall⟩ := hd
  have hdig : ∀ c ∈ s.data, c.isDigit = true := List.all_eq_true.mp hall
  have hdrop : s.data.dropWhile (fun c => !c.isDigit) = s.data := by
    apply dropWhile_eq_self_of_head
    intro x hx
    cases hs : s.data with
    | nil =>
      rw [hs] at hx
      cases hx
    | cons c cs =>
      rw [hs] at hx
      rw [List.head?_cons, Option.some.injEq] at hx
      subst hx
      rw [hdig c (hs ▸ List.mem_cons_self c cs)]
      rfl
  have htake := (takeWhile_all_digits hdig).1
  unfold parseTok
  rw [hdrop, htake]
  cases hs : s.data with
  | nil =>
    rw [hs] at hne
    simp at hne
  | cons c cs =>
    have htk : (c :: cs).take w = c :: cs := by
      apply List.take_of_length_le
      rw [← hs]
      exact hlen
    show some (natOfDigits ((c :: cs).take w)) = some (natOfDigits (c :: cs))
    rw [htk]

theorem getDate_ago2020 (now : Now) (day : String)
    (h1 : INT_REGEX_test day = true) (h2 : day.data.length ≤ 2)
    (h3 : 1 ≤ natOfDigits day.data) (h4 : natOfDigits day.data ≤ 31) :
    getDate now day "ago" (some "2020")
      = some ⟨2020, 8, natOfDigits day.data⟩ := by
  have hday := parseTok_all_digits (w := 2) h1 h2
  have hmon : parseMonthEs (purgeMonth "ago") = some 8 := rfl
  have hyear : parseTok 4 "2020" = some 2020 := rfl
  simp only [getDate, hday, hmon, Option.getD_some, hyear]
  have h31 : daysInMonth 2020 8 = 31 := rfl
  rw [h31, if_pos ⟨h3, h4⟩]

/-- The later rows of the C4 scenario: once the context carries the
explicit month and year of the first row, rows with empty month and
year cells inherit them and resolve inside August 2020. -/
theorem resolveAll_sticky_august (now : Now) :
    ∀ (rest : List Line),
    (∀ l ∈ rest, (l.month = none ∨ l.month = some "")
      ∧ (l.year = none ∨ l.year = some "")) →
    (∀ l ∈ rest, INT_REGEX_test l.day = true ∧ l.day.data.length ≤ 2
      ∧ 1 ≤ natOfDigits l.day.data ∧ natOfDigits l.day.data ≤ 31) →
    ∀ r ∈ resolveAll now ⟨some "ago", some "2020"⟩ rest,
      ∃ d, r = .ok (some ⟨2020, 8, d⟩) := by
  intro rest
  induction rest with
  | nil =>
    intro _ _ r hr
    cases hr
  | cons l ls ih =>
    intro hcells hdays r hr
    have hl := hcells l (List.mem_cons_self l ls)
    have hd := hdays l (List.mem_cons_self l ls)
    have hmonth : jsOr l.month (some "ago") = some "ago" := by
      rcases hl.1 with h | h <;> rw [h] <;> rfl
    have hyear : jsOr l.year (some "2020") = some "2020" := by
      rcases hl.2 with h | h <;> rw [h] <;> rfl
    have hstep : stepCtx ⟨some "ago", some "2020"⟩ l
        = ⟨some "ago", some "2020"⟩ := by
      unfold stepCtx
      rw [hmonth, hyear]
    have hres : resolveLine now ⟨some "ago", some "2020"⟩ l
        = .ok (some ⟨2020, 8, natOfDigits l.day.data⟩) := by
      unfold resolveLine
      rw [hmonth, hyear]
      show Except.ok (getDate now l.day "ago" (some "2020")) = _
      rw [getDate_ago2020 now l.day hd.1 hd.2.1 hd.2.2.1 hd.2.2.2]
    rw [resolveAll, hstep, hres] at hr
    rcases List.mem_cons.mp hr with hr | hr
    · exact ⟨natOfDigits l.day.data, hr⟩
    · exact ih (fun x hx => hcells x (List.mem_cons_of_mem l hx))
        (fun x hx => hdays x (List.mem_cons_of_mem l hx)) r hr

/-- C4: in a sequence whose first row carries month ago and year 2020
and whose later rows leave month and year empty, every row inherits the
context of the nearest row that specified it and resolves to a date in
August 2020. -/
theorem carry_forward_august (now : Now) (first : Line) (rest : List Line)
    (hm : first.month = some "ago") (hy : first.year = some "2020")
    (hcells : ∀ l ∈ rest, (l.month = none ∨ l.month = some "")
      ∧ (l.year = none ∨ l.year = some ""))
    (hdays : ∀ l ∈ first :: rest, INT_REGEX_test l.day = true
      ∧ l.day.data.length ≤ 2 ∧ 1 ≤ natOfDigits l.day.data
      ∧ natOfDigits l.day.data ≤ 31) :
    ∀ r ∈ resolveAll now ⟨none, none⟩ (first :: rest),
      ∃ d, r = .ok (some ⟨2020, 8, d⟩) := by
  intro r hr
  have hd := hdays first (List.mem_cons_self first rest)
  have hmonth : jsOr first.month none = some "ago" := by
    rw [hm]
    rfl
  have hyear : jsOr first.year none = some "2020" := by
    rw [hy]
    rfl
  have hstep : stepCtx ⟨none, none⟩ first = ⟨some "ago", some "2020"⟩ := by
    unfold stepCtx
    rw [hmonth, hyear]
  have hres : resolveLine now ⟨none, none⟩ first
      = .ok (some ⟨2020, 8, natOfDigits first.day.data⟩) := by
    unfold resolveLine
    rw [hmonth, hyear]
    show Except.ok (getDate now first.day "ago" (some "2020")) = _
    rw [getDate_ago2020 now first.day hd.1 hd.2.1 hd.2.2.1 hd.2.2.2]
  rw [resolveAll, hstep, hres] at hr
  rcases List.mem_cons.mp hr with hr | hr
  · exact ⟨natOfDigits first.day.data, hr⟩
  · exact resolveAll_sticky_august now rest hcells
      (fun x hx => hdays x (List.mem_cons_of_mem first hx)) r hr

/-- Witness for C4: the two-row August 2020 scenario; the second row
has empty month and year cells and still resolves to 2020-08-02. -/
theorem carry_forward_august_witness :
    ∃ d, (Except.ok (some (⟨2020, 8, 2⟩ : MDate)) : Except Unit (Option MDate))
      = .ok (some ⟨2020, 8, d⟩) := by
  have h := carry_forward_august nowW lineAgo1 [lineBlank2]
    rfl rfl (by decide) (by decide)
  exact h (.ok (some ⟨2020, 8, 2⟩))
    (List.mem_cons_of_mem _ (List.mem_singleton.mpr rfl))

/-- The carry-forward context after a list of rows, as the loop of
`makeArrayOfDays` leaves it. -/
def ctxAfter (ls : List Line) : Ctx := ls.foldl stepCtx ⟨none, none⟩

/-- JS truthiness of a string cell: present and non-empty. -/
def jsTruthy (c : Option String) : Prop := ∃ s, c = some s ∧ s ≠ ""

/-- A context whose month and year are both defined. -/
def ctxDefined (c : Ctx) : Prop :=
  (∃ m, c.month = some m) ∧ (∃ y, c.year = some y)

theorem jsOr_of_truthy {c x : Option String} (h : jsTruthy c) :
    ∃ s, jsOr c x = some s := by
  obtain ⟨s, hc, hs⟩ := h
  rw [hc]
  show ∃ t, (if s = "" then x else some s) = some t
  rw [if_neg hs]
  exact ⟨s, rfl⟩

theorem jsOr_some_fallback (c : Option String) (m : String) :
    ∃ s, jsOr c (some m) = some s := by
  cases c with
  | none => exact ⟨m, rfl⟩
  | some s =>
    show ∃ t, (if s = "" then some m else some s) = some t
    by_cases hs : s = ""
    · rw [if_pos hs]
      exact ⟨m, rfl⟩
    · rw [if_neg hs]
      exact ⟨s, rfl⟩

theorem ctxAfter_append_one (ls : List Line) (l : Line) :
    ctxAfter (ls ++ [l]) = stepCtx (ctxAfter ls) l := by
  unfold ctxAfter
  rw [List.foldl_append]
  rfl

theorem ctxDefined_step {c : Ctx} (h : ctxDefined c) (l : Line) :
    ctxDefined (stepCtx c l) := by
  obtain ⟨⟨m, hm⟩, ⟨y, hy⟩⟩ := h
  constructor
  · show ∃ s, jsOr l.month c.month = some s
    rw [hm]
    exact jsOr_some_fallback _ _
  · show ∃ s, jsOr l.year c.year = some s
    rw [hy]
    exact jsOr_some_fallback _ _

/-- C9: once a row has supplied explicit non-empty month and year
cells, the carry-forward context holds a defined month and year at
every later point and never reverts to absent, so date construction at
every subsequent row is applied to defined values and resolution never
hits the undefined-month failure. -/
theorem ctx_defined_after_explicit (now : Now) (pre : List Line) (l0 : Line)
    (post : List Line) (hm : jsTruthy l0.month) (hy : jsTruthy l0.year) :
    (∀ j, j ≤ post.length → ctxDefined (ctxAfter (pre ++ l0 :: post.take j)))
    ∧ ∀ j (hj : j < post.length),
        ∃ r, resolveLine now (ctxAfter (pre ++ l0 :: post.take j))
            (post.get ⟨j, hj⟩) = .ok r := by
  have base : ctxDefined (ctxAfter (pre ++ [l0])) := by
    rw [ctxAfter_append_one]
    exact ⟨jsOr_of_truthy hm, jsOr_of_truthy hy⟩
  have hdef : ∀ j, j ≤ post.length →
      ctxDefined (ctxAfter (pre ++ l0 :: post.take j)) := by
    intro j
    induction j with
    | zero =>
      intro _
      simpa using base
    | succ j ih =>
      intro hj
      have hj' : j < post.length := Nat.lt_of_succ_le hj
      have htake : post.take (j + 1)
          = post.take j ++ [post.get ⟨j, hj'⟩] := by
        rw [List.take_succ]
        congr 1
        rw [List.getElem?_eq_getElem hj']
        rfl
      have hassoc : pre ++ l0 :: (post.take j ++ [post.get ⟨j, hj'⟩])
          = (pre ++ l0 :: post.take j) ++ [post.get ⟨j, hj'⟩] := by
        simp
      rw [htake, hassoc, ctxAfter_append_one]
      exact ctxDefined_step (ih (Nat.le_of_lt hj')) _
  refine ⟨hdef, ?_⟩
  intro j hj
  obtain ⟨⟨m, hmm⟩, _⟩ := hdef j (Nat.le_of_lt hj)
  unfold resolveLine
  rw [hmm]
  obtain ⟨s, hs⟩ := jsOr_some_fallback (post.get ⟨j, hj⟩).month m
  rw [hs]
  exact ⟨_, rfl⟩

/-- Witness for C9: after the explicit August 2020 row, the next row
with empty cells resolves without the undefined-context failure. -/
theorem ctx_defined_after_explicit_witness :
    ∃ r, resolveLine nowW (ctxAfter ([] ++ lineAgo1 :: List.take 0 [lineBlank2]))
        (List.get [lineBlank2] ⟨0, by decide⟩) = .ok r :=
  (ctx_defined_after_explicit nowW [] lineAgo1 [lineBlank2]
    ⟨"ago", rfl, by decide⟩ ⟨"2020", rfl, by decide⟩).2 0 (by decide)

/-- C1: for every last-known date D supplied by the store and every
sequence of extracted rows, no record whose resolved date is
same-or-before D (equality included) appears in the aggregator output
mapping. -/
theorem makeArrayOfDays_monotone (now : Now) (D : MDate) (lines : List Line)
    (out : List (String × Day))
    (h : makeArrayOfDays now (some D) lines = .ok out) :
    ∀ p ∈ out, ∀ d : MDate, p.2.date = some d →
      dateLE d D = false ∧ d ≠ D := by
  obtain ⟨kvs, hkvs, hout⟩ := makeArrayOfDays_ok now (some D) lines out h
  intro p hp d hd
  rw [hout] at hp
  rcases mem_foldl_setKey kvs [] p hp with hmem | hmem
  · cases hmem
  · have hfilter :=
      (passedKVs_mem now (some D) lines ⟨none, none⟩ kvs hkvs p hmem).1
    rw [hd] at hfilter
    have hle : dateLE d D = false := hfilter
    refine ⟨hle, ?_⟩
    intro hEq
    rw [hEq, dateLE_refl] at hle
    cases hle

/-- Witness for C1: a run over two August 2020 rows with last-known
date 2020-08-01 keeps only the 2020-08-02 record, whose date is neither
before nor equal to the last-known date. -/
theorem makeArrayOfDays_monotone_witness :
    dateLE ⟨2020, 8, 2⟩ ⟨2020, 8, 1⟩ = false
    ∧ (⟨2020, 8, 2⟩ : MDate) ≠ ⟨2020, 8, 1⟩ :=
  makeArrayOfDays_monotone nowW ⟨2020, 8, 1⟩ [lineAgo1, lineBlank2]
    [("02/08/2020", mkDay (some ⟨2020, 8, 2⟩) lineBlank2)] rfl
    ("02/08/2020", mkDay (some ⟨2020, 8, 2⟩) lineBlank2)
    (List.mem_singleton.mpr rfl) ⟨2020, 8, 2⟩ rfl

/-- C6: the output mapping holds at most one entry per date key, and
the entry at a key is the record of the candidate appearing last in
document order among those with that key (a later insertion overwrites
an earlier one). -/
theorem makeArrayOfDays_last_wins (now : Now) (lastDate : Option MDate)
    (lines : List Line) (out kvs : List (String × Day))
    (h : makeArrayOfDays now lastDate lines = .ok out)
    (hk : passedKVs now lastDate ⟨none, none⟩ lines = .ok kvs) :
    (out.map Prod.fst).Nodup
    ∧ ∀ k, lookupKey out k
        = ((kvs.filter (fun p => p.1 = k)).map Prod.snd).getLast? := by
  obtain ⟨kvs2, hkvs2, hout⟩ := makeArrayOfDays_ok now lastDate lines out h
  rw [hkvs2] at hk
  injection hk with hk
  subst hk
  constructor
  · rw [hout]
    exact nodup_fst_foldl_setKey kvs2 [] List.nodup_nil
  · intro k
    rw [hout, lookupKey_foldl_setKey kvs2 [] k]
    have hnil : lookupKey [] k = none := rfl
    rw [hnil, Option.or_none]

/-- Witness for C6: two rows resolving to 2020-08-01 both pass the
filter; the output holds exactly the record of the second row. -/
theorem makeArrayOfDays_last_wins_witness :
    lookupKey [("01/08/2020", mkDay (some ⟨2020, 8, 1⟩) lineDup1)]
        "01/08/2020"
      = some (mkDay (some ⟨2020, 8, 1⟩) lineDup1) := by
  have h := makeArrayOfDays_last_wins nowW none [lineAgo1, lineDup1]
    [("01/08/2020", mkDay (some ⟨2020, 8, 1⟩) lineDup1)]
    [("01/08/2020", mkDay (some ⟨2020, 8, 1⟩) lineAgo1),
     ("01/08/2020", mkDay (some ⟨2020, 8, 1⟩) lineDup1)] rfl rfl
  exact (h.2 "01/08/2020").trans rfl

/-- C10: an empty store yields a null last-known date, the
same-or-before filter then excludes no candidate, every line
contributes a candidate, and every candidate key has an entry in the
output mapping (last-wins aside). -/
theorem makeArrayOfDays_empty_store (now : Now) (lines : List Line)
    (out kvs : List (String × Day))
    (h : makeArrayOfDays now (getLastDate []) lines = .ok out)
    (hk : passedKVs now (getLastDate []) ⟨none, none⟩ lines = .ok kvs) :
    getLastDate [] = none
    ∧ (∀ d : Option MDate, isSameOrBefore d (getLastDate []) = false)
    ∧ kvs.length = lines.length
    ∧ ∀ p ∈ kvs, ∃ v, lookupKey out p.1 = some v := by
  refine ⟨rfl, fun d => isSameOrBefore_none d, ?_, ?_⟩
  · exact passedKVs_none_length now lines ⟨none, none⟩ kvs hk
  · intro p hp
    obtain ⟨kvs2, hkvs2, hout⟩ :=
      makeArrayOfDays_ok now (getLastDate []) lines out h
    rw [hkvs2] at hk
    injection hk with hk
    subst hk
    rw [hout, lookupKey_foldl_setKey kvs2 [] p.1]
    have hmem : p ∈ kvs2.filter (fun q => q.1 = p.1) :=
      List.mem_filter.mpr ⟨hp, by simp⟩
    have hne : (kvs2.filter (fun q => q.1 = p.1)).map Prod.snd ≠ [] := by
      intro hcon
      rw [List.map_eq_nil_iff] at hcon
      exact absurd hmem (hcon ▸ List.not_mem_nil p)
    have hsome := List.getLast?_isSome.mpr hne
    obtain ⟨v, hv⟩ := Option.isSome_iff_exists.mp hsome
    exact ⟨v, by rw [hv]; rfl⟩

theorem insertRows_cons (d : Day) (ds : List Day) :
    insertRows (d :: ds)
      = d.currencies.map (fun c => (c.iso, d.date, c.buy, c.sell))
        ++ insertRows ds := by
  unfold insertRows
  rw [List.flatMap_cons]

theorem insertRows_length (ds : List Day)
    (h4 : ∀ d ∈ ds, d.currencies.length = 4) :
    (insertRows ds).length = 4 * ds.length := by
  induction ds with
  | nil => rfl
  | cons d ds ih =>
    rw [insertRows_cons, List.length_append, List.length_map,
      h4 d (List.mem_cons_self d ds),
      ih (fun x hx => h4 x (List.mem_cons_of_mem d hx)), List.length_cons]
    ring

theorem mem_insertRows {r : String × Option MDate × Option String × Option String}
    {ds : List Day} (h : r ∈ insertRows ds) : ∃ d ∈ ds, r.2.1 = d.date := by
  unfold insertRows at h
  obtain ⟨d, hd, hr⟩ := List.mem_flatMap.mp h
  obtain ⟨c, hc, hrc⟩ := List.mem_map.mp hr
  exact ⟨d, hd, by rw [← hrc]⟩

theorem countP_eq_one_of_nodup_mem {α : Type} [DecidableEq α] {a : α}
    {l : List α} (hn : l.Nodup) (ha : a ∈ l) :
    l.countP (fun i => decide (i = a)) = 1 := by
  induction l with
  | nil => cases ha
  | cons x xs ih =>
    rw [List.nodup_cons] at hn
    rcases List.mem_cons.mp ha with ha | ha
    · subst ha
      rw [List.countP_cons_of_pos _ _ (by simp)]
      have h0 : xs.countP (fun i => decide (i = a)) = 0 := by
        rw [List.countP_eq_zero]
        intro i hi
        simp only [decide_eq_true_eq]
        intro he
        exact hn.1 (he ▸ hi)
      rw [h0]
    · have hxa : ¬ x = a := fun he => hn.1 (he ▸ ha)
      rw [List.countP_cons_of_neg _ _ (by simp [hxa])]
      exact ih hn.2 ha

theorem insertRows_countP (ds : List Day)
    (hdates : (ds.map Day.date).Nodup)
    (hiso : ∀ d ∈ ds, (d.currencies.map Quote.iso).Nodup) :
    ∀ d ∈ ds, ∀ q ∈ d.currencies,
      (insertRows ds).countP
        (fun r => decide (r.1 = q.iso ∧ r.2.1 = d.date)) = 1 := by
  induction ds with
  | nil =>
    intro d hd
    cases hd
  | cons d0 ds ih =>
    intro d hd q hq
    rw [insertRows_cons, List.countP_append]
    rw [List.map_cons, List.nodup_cons] at hdates
    rcases List.mem_cons.mp hd with hd | hd
    · subst hd
      have htail : (insertRows ds).countP
          (fun r => decide (r.1 = q.iso ∧ r.2.1 = d.date)) = 0 := by
        rw [List.countP_eq_zero]
        intro r hr
        obtain ⟨d', hd', hrd⟩ := mem_insertRows hr
        simp only [decide_eq_true_eq, not_and]
        intro _ hdate
        exact hdates.1 (hdate ▸ hrd ▸ List.mem_map_of_mem Day.date hd')
      rw [htail, List.countP_map]
      have hcong : (d.currencies.countP
            ((fun r => decide (r.1 = q.iso ∧ r.2.1 = d.date))
              ∘ (fun c => (c.iso, d.date, c.buy, c.sell))))
          = d.currencies.countP (fun c => decide (c.iso = q.iso)) := by
        apply List.countP_congr
        intro c _
        simp
      have hmap : d.currencies.countP (fun c => decide (c.iso = q.iso))
          = (d.currencies.map Quote.iso).countP (fun i => decide (i = q.iso)) := by
        rw [List.countP_map]
        apply List.countP_congr
        intro c _
        simp
      rw [hcong, hmap,
        countP_eq_one_of_nodup_mem (hiso d (List.mem_cons_self d ds))
          (List.mem_map_of_mem Quote.iso hq)]
    · have hhead : (d0.currencies.map
            (fun c => (c.iso, d0.date, c.buy, c.sell))).countP
          (fun r => decide (r.1 = q.iso ∧ r.2.1 = d.date)) = 0 := by
        rw [List.countP_eq_zero]
        intro r hr
        obtain ⟨c, hc, hrc⟩ := List.mem_map.mp hr
        simp only [decide_eq_true_eq, not_and]
        intro _ hdate
        rw [← hrc] at hdate
        have hdd : d0.date = d.date := hdate
        refine hdates.1 ?_
        rw [hdd]
        exact List.mem_map_of_mem Day.date hd
      rw [hhead, ih hdates.2
        (fun x hx => hiso x (List.mem_cons_of_mem d0 hx)) d hd q hq]

/-- C7: a non-empty batch of records, each carrying four currency
quotes, expands to exactly one storage row per date and currency pair —
four rows per record, each sharing the record date, 4·n rows in all —
and the loader reports that row count. -/
theorem insertDays_expansion (days : List Day) (hne : days ≠ [])
    (h4 : ∀ d ∈ days, d.currencies.length = 4)
    (hdates : (days.map Day.date).Nodup)
    (hiso : ∀ d ∈ days, (d.currencies.map Quote.iso).Nodup) :
    (insertDays (some days)).1 = 4 * days.length
    ∧ (insertDays (some days)).2 = some (insertRows days)
    ∧ (∀ d ∈ days, ∀ q ∈ d.currencies,
        (q.iso, d.date, q.buy, q.sell) ∈ insertRows days)
    ∧ (∀ r ∈ insertRows days, ∃ d ∈ days, r.2.1 = d.date)
    ∧ ∀ d ∈ days, ∀ q ∈ d.currencies,
        (insertRows days).countP
          (fun r => decide (r.1 = q.iso ∧ r.2.1 = d.date)) = 1 := by
  have hlen : ¬ days.length = 0 := fun h => hne (List.length_eq_zero.mp h)
  have hins : insertDays (some days)
      = ((insertRows days).length, some (insertRows days)) := by
    show (if days.length = 0 then ((0 : Nat), none)
        else ((insertRows days).length, some (insertRows days))) = _
    rw [if_neg hlen]
  refine ⟨?_, ?_, ?_, ?_, insertRows_countP days hdates hiso⟩
  · rw [hins]
    exact insertRows_length days h4
  · rw [hins]
  · intro d hd q hq
    unfold insertRows
    exact List.mem_flatMap.mpr ⟨d, hd, List.mem_map.mpr ⟨q, hq, rfl⟩⟩
  · intro r hr
    exact mem_insertRows hr

/-- Witness for C7: one record with four quotes yields a count of four
rows. -/
theorem insertDays_expansion_witness :
    (insertDays (some [mkDay (some ⟨2020, 8, 1⟩) lineAgo1])).1 = 4 * 1 :=
  (insertDays_expansion [mkDay (some ⟨2020, 8, 1⟩) lineAgo1]
    (by decide) (by decide) (by decide) (by decide)).1

/-- C8: the loader given the flattened aggregator result short-circuits
on empty input, reporting zero rows inserted and issuing no write; a
falsy input behaves the same. -/
theorem insertDays_empty (now : Now) (lastDate : Option MDate)
    (out : List (String × Day))
    (h : makeArrayOfDays now lastDate [] = .ok out) :
    insertDays (some (out.map Prod.snd)) = (0, none)
    ∧ insertDays (some []) = (0, none)
    ∧ insertDays none = (0, none) := by
  have hout : out = [] := by
    have h0 : makeArrayOfDays now lastDate [] = .ok [] := rfl
    rw [h0] at h
    injection h with h
    exact h.symm
  subst hout
  exact ⟨rfl, rfl, rfl⟩

/-- Witness for C8: the empty run reports zero rows and no write. -/
theorem insertDays_empty_witness :
    insertDays (some (([] : List (String × Day)).map Prod.snd)) = (0, none)
    ∧ insertDays (some []) = (0, none)
    ∧ insertDays none = (0, none) :=
  insertDays_empty nowW none [] rfl

/-- Counterexample to C2 as stated: the row composing 31 April 2020,
which is not a real calendar date, raises no error and is not skipped —
it contributes an entry to the output mapping, under the literal
Invalid date key of the moment format. -/
theorem invalid_date_row_contributes :
    makeArrayOfDays nowW (some ⟨2020, 8, 1⟩) [lineBad]
      = .ok [("Invalid date", mkDay none lineBad)] := rfl

/-- C2 amended: a row whose day, month and year compose to something
that is not a real calendar date raises no error and is not skipped:
its date resolves to the invalid-moment marker, which the
same-or-before filter never matches, so the row stores its record under
the literal Invalid date key (all such rows collide there) and
processing continues with the remaining rows. -/
theorem invalid_date_row_step (now : Now) (lastDate : Option MDate)
    (ctx : Ctx) (days : List (String × Day)) (l : Line) (ls : List Line)
    (hres : resolveLine now ctx l = .ok none) :
    makeArrayOfDaysAux now lastDate ctx days (l :: ls)
      = makeArrayOfDaysAux now lastDate (stepCtx ctx l)
          (setKey days "Invalid date" (mkDay none l)) ls := by
  have hinv : isSameOrBefore none lastDate = false := by
    cases lastDate <;> rfl
  simp only [makeArrayOfDaysAux, hres, hinv, Bool.false_eq_true, if_false]
  rfl

/-- Witness for C2 amended: the 31 April 2020 row is folded in under
the Invalid date key and the next row is still processed. -/
theorem invalid_date_row_step_witness :
    makeArrayOfDaysAux nowW (some ⟨2020, 8, 1⟩) ⟨none, none⟩ []
        [lineBad, lineBlank2]
      = makeArrayOfDaysAux nowW (some ⟨2020, 8, 1⟩) (stepCtx ⟨none, none⟩ lineBad)
          (setKey [] "Invalid date" (mkDay none lineBad)) [lineBlank2] :=
  invalid_date_row_step nowW (some ⟨2020, 8, 1⟩) ⟨none, none⟩ [] lineBad
    [lineBlank2] rfl

/-- Witness for C10: a one-row run against the empty store keeps the
row and its key is present in the mapping. -/
theorem makeArrayOfDays_empty_store_witness :
    ∃ v, lookupKey [("01/08/2020", mkDay (some ⟨2020, 8, 1⟩) lineAgo1)]
        "01/08/2020" = some v := by
  have h := makeArrayOfDays_empty_store nowW [lineAgo1]
    [("01/08/2020", mkDay (some ⟨2020, 8, 1⟩) lineAgo1)]
    [("01/08/2020", mkDay (some ⟨2020, 8, 1⟩) lineAgo1)] rfl rfl
  exact h.2.2.2 ("01/08/2020", mkDay (some ⟨2020, 8, 1⟩) lineAgo1)
    (List.mem_singleton.mpr rfl)
